import Mathlib

/-!
Verification of the codesearch trigram-index tool against its specification.

The development shallowly embeds the Rust sources (`src/bitmap.rs`,
`src/encoding.rs`, `src/index.rs`, `src/search_rank.rs`, `src/main.rs`).
Machine bytes (`u8`) are modelled as `Nat` with explicit `% 256` wherever the
Rust arithmetic wraps, byte strings (`Vec<u8>`, `&str`, `OsString`) as
`List Nat`, and fallible or panicking code as `Option` / `Except`.

Panic conventions: a Rust `panic!` (out-of-bounds index, failed `expect`,
slice-boundary violation) is modelled as `none` / `Except.error`.  For integer
overflow the embedding follows the release-profile semantics that shipped
binaries exhibit: a primitive shift by an amount `≥` the bit width uses the
masked shift amount (Rust's defined wrap-on-overflow behaviour), while
out-of-bounds indexing — including indexing after a wrapped `usize`
subtraction — panics in every profile and is therefore `none`.
-/

namespace Codesearch

/-! ## Bitmap (`src/bitmap.rs`)

A `BitMap` is a `Vec<u8>`; we model its byte vector as `List Nat`.
Bit `i` lives in byte `i / 8` at mask `1 <<< (i % 8)` (LSB first).
-/

/-- Rust `BitMap::get`: bit `i` of the byte vector, LSB-first within each byte.
The Rust version panics when `i / 8` is out of range; out-of-range reads of
this total model return `false` (claims only apply it in range). -/
def bmGet (bm : List Nat) (i : Nat) : Bool :=
  decide ((bm.getD (i / 8) 0) &&& (1 <<< (i % 8)) ≠ 0)

/-- Rust `BitMap::set` with `v = true`: OR the mask into byte `i / 8`.
The Rust version panics out of range; `List.set` is a no-op there, and every
use below is in range. -/
def bmSetTrue (bm : List Nat) (i : Nat) : List Nat :=
  bm.set (i / 8) ((bm.getD (i / 8) 0) ||| (1 <<< (i % 8)))

/-- Rust `BitMap::new(len)`: `ceil(len / 8)` zero bytes (the Rust computes the
count through `f64::ceil`, which agrees with `(len + 7) / 8` for every
realistic length). -/
def bmNew (len : Nat) : List Nat :=
  List.replicate ((len + 7) / 8) 0

/-! ### Left shift (`ShlAssign for BitMap`, bitmap.rs lines 205-231)

The byte-stride pass runs `rhs / 8` times; each run copies `self.0[i]` to
`self.0[i-1]` for ascending `i` and zeroes the final byte, i.e. maps the
vector to `tail ++ [0]`.  On an empty vector the statement
`let end = self.0.len() - 1; self.0[end] = 0;` underflows and the indexing
panics in every profile, hence `none`.

The sub-byte pass uses `hi_bits = 8 - bit_shifts` and
`hi_mask = u8::MAX << hi_bits`; when `bit_shifts = 0` the shift amount is 8
and the release build masks it to 0.  At iteration `i` the loop ORs the `hi`
value computed in iteration `i - 1` — which holds the top `bit_shifts` bits of
the *original* byte `i - 1` — back into byte `i - 1` itself, so every byte
except the last receives its own carried-out bits in its low positions, and
the final byte's carry is discarded. -/

/-- Release-mode value of `hi_bits` as used in a `u8` shift: `8 - bit_shifts`
masked by the byte width. -/
def shlHiBits (s : Nat) : Nat := (8 - s) % 8

/-- Release-mode `hi_mask = u8::MAX << hi_bits`. -/
def shlHiMask (s : Nat) : Nat := (255 <<< shlHiBits s) % 256

/-- One iteration of the `ShlAssign` byte-stride loop on a non-empty vector. -/
def shlBytePass (l : List Nat) : List Nat := l.tail ++ [0]

/-- Runs `byte_shifts` iterations of the byte-stride loop. -/
def repShlBytePass : Nat → List Nat → List Nat
  | 0, l => l
  | k + 1, l => repShlBytePass k (shlBytePass l)

/-- The `ShlAssign` sub-byte pass with `bit_shifts = s`: each byte except the
last becomes `(b << s) | ((b & hi_mask) >> hi_bits)`; the last becomes
`b << s`. -/
def shlBits (s : Nat) : List Nat → List Nat
  | [] => []
  | [b] => [(b <<< s) % 256]
  | b :: c :: rest =>
      (((b <<< s) % 256) ||| ((b &&& shlHiMask s) >>> shlHiBits s)) :: shlBits s (c :: rest)

/-- Rust `ShlAssign for BitMap` (and hence `Shl`, which clones and delegates):
`none` models the panic on the empty vector when `byte_shifts > 0`. -/
def shlAssign (a : List Nat) (n : Nat) : Option (List Nat) :=
  let byteShifts := n / 8
  let bitShifts := n % 8
  if byteShifts > 0 ∧ a.length = 0 then none
  else some (shlBits bitShifts (repShlBytePass byteShifts a))

/-! ### Right shift (`ShrAssign for BitMap`, bitmap.rs lines 243-265)

The byte-stride pass copies `self.0[i]` to `self.0[i+1]` for descending `i`
and zeroes byte 0, i.e. maps the vector to `0 :: dropLast`.  On an empty
vector `(0..self.0.len() - 1)` underflows and the loop body's indexing panics.
The sub-byte pass uses `hi_mask = u8::MAX >> hi_bits` (low `bit_shifts` bits)
and ORs the `hi` carried from byte `i - 1` into byte `i` after shifting. -/

/-- Release-mode `hi_mask = u8::MAX >> hi_bits` of the `ShrAssign` pass. -/
def shrLoMask (s : Nat) : Nat := 255 >>> shlHiBits s

/-- One iteration of the `ShrAssign` byte-stride loop on a non-empty vector. -/
def shrBytePass (l : List Nat) : List Nat := 0 :: l.dropLast

/-- Runs `byte_shifts` iterations of the `ShrAssign` byte-stride loop. -/
def repShrBytePass : Nat → List Nat → List Nat
  | 0, l => l
  | k + 1, l => repShrBytePass k (shrBytePass l)

/-- The `ShrAssign` sub-byte pass: byte `i` becomes
`(b_i >> s) | ((b_(i-1) & hi_mask) << hi_bits)` with the initial carry 0. -/
def shrBits (s : Nat) (carry : Nat) : List Nat → List Nat
  | [] => []
  | b :: rest =>
      ((b >>> s) ||| carry) :: shrBits s (((b &&& shrLoMask s) <<< shlHiBits s) % 256) rest

/-- Rust `ShrAssign for BitMap` (and hence `Shr`). -/
def shrAssign (a : List Nat) (n : Nat) : Option (List Nat) :=
  let byteShifts := n / 8
  let bitShifts := n % 8
  if byteShifts > 0 ∧ a.length = 0 then none
  else some (shrBits bitShifts 0 (repShrBytePass byteShifts a))

/-! ### Non-mutating AND (`BitAnd for BitMap`, bitmap.rs lines 112-124)

`bitand` computes `len = max(self.0.len(), rhs.0.len())` — a count of
*bytes* — and then allocates the result with `BitMap::new(len)`, whose
argument is a count of *bits*, so the result holds `ceil(len / 8)` bytes.
The write `res.0[i]` for `i in 0..len` therefore indexes out of bounds
(panics) as soon as `len ≥ 2`. -/

/-- The `bitand` write loop: `res.0[i] = a[i] & b[i]` (missing bytes read as
0 through `get(i).unwrap_or(&0)`), `none` on an out-of-bounds write. -/
def bitAndGo (a b : List Nat) : Nat → Nat → List Nat → Option (List Nat)
  | 0, _, res => some res
  | k + 1, i, res =>
      if i < res.length then
        bitAndGo a b k (i + 1) (res.set i ((a.getD i 0) &&& (b.getD i 0)))
      else none

/-- Rust `BitAnd for BitMap`: `a & b`. -/
def bitAnd (a b : List Nat) : Option (List Nat) :=
  let len := max a.length b.length
  bitAndGo a b len 0 (bmNew len)

/-! ## Byte classifier (`src/encoding.rs`) -/

/-- Rust `encoding::is_printable`: every byte is in `0x09..=0x0D` or
`0x20..=0x7E`. -/
def is_printable (s : List Nat) : Bool :=
  s.all fun b => decide ((8 < b ∧ b < 14) ∨ (32 ≤ b ∧ b < 127))

/-- Rust `encoding::is_utf8`: every byte matches one of the five UTF-8 byte
prefix classes. -/
def is_utf8 (s : List Nat) : Bool :=
  s.all fun b =>
    decide (b &&& 0x80 = 0 ∨ b &&& 0xc0 = 0x80 ∨ b &&& 0xe0 = 0xc0 ∨
      b &&& 0xf0 = 0xe0 ∨ b &&& 0xf8 = 0xf0)

/-! ## Trigram extraction (`index_file`, index.rs lines 337-369)

A trigram (`[u8; 3]`) is modelled as a triple of bytes.  The sliding window
reads 3 bytes and rewinds 2, so consecutive windows overlap in 2 bytes; the
loop ends when fewer than 3 bytes remain.

A window that passes the `is_utf8 && is_printable` check consists solely of
bytes in `0x09..=0x0D` or `0x20..=0x7E`, i.e. printable ASCII; on such bytes
`std::str::from_utf8` always succeeds and yields one `char` per byte, a
`char` in that range is `char::is_alphanumeric` exactly when it is an ASCII
digit or letter, and every such `char` `is_ascii`.  The `from_utf8` branch of
the source therefore collapses to the byte-level test and lowercasing
below. -/

/-- A trigram: the 3-byte `[u8; 3]`. -/
abbrev Tri := Nat × Nat × Nat

/-- ASCII-alphanumeric test (what `char::is_alphanumeric` means on printable
ASCII). -/
def asciiAlnum (b : Nat) : Bool :=
  decide ((48 ≤ b ∧ b ≤ 57) ∨ (65 ≤ b ∧ b ≤ 90) ∨ (97 ≤ b ∧ b ≤ 122))

/-- Rust `u8::to_ascii_lowercase`. -/
def asciiLower (b : Nat) : Nat :=
  if 65 ≤ b ∧ b ≤ 90 then b + 32 else b

/-- The body of the `index_file` read loop: check the window, optionally push
the lowercased trigram (skipping duplicates), advance one byte. -/
def indexFileGo (acc : List Tri) : List Nat → Except Unit (List Tri)
  | b0 :: b1 :: b2 :: rest =>
      if !(is_utf8 [b0, b1, b2] && is_printable [b0, b1, b2]) then
        Except.error ()
      else
        let acc' :=
          if asciiAlnum b0 && asciiAlnum b1 && asciiAlnum b2 then
            let lower : Tri := (asciiLower b0, asciiLower b1, asciiLower b2)
            if lower ∈ acc then acc else acc ++ [lower]
          else acc
        indexFileGo acc' (b1 :: b2 :: rest)
  | _ => Except.ok acc

/-- Rust `index_file`: the distinct lowercased alphanumeric trigrams of a byte
sequence, or `Except.error ()` for the `BinaryFile` rejection. -/
def indexFile (bs : List Nat) : Except Unit (List Tri) :=
  indexFileGo [] bs

/-- The sliding 3-byte windows of a byte sequence, in reading order. -/
def windows3 : List Nat → List (List Nat)
  | b0 :: b1 :: b2 :: rest => [b0, b1, b2] :: windows3 (b1 :: b2 :: rest)
  | _ => []

/-! ## Index builder (`Index::create`, index.rs lines 72-140)

`create` walks the tree, extracts trigrams per file (skipping files whose
extraction fails and files with an empty trigram set), inverts the per-file
trigram sets into a trigram-keyed map of bitmaps, sorts the entries by
trigram bytes (`[u8; 3]::cmp`, bytewise lexicographic), and writes the file.

A corpus is a list of `(path bytes, content bytes)` pairs, in walker order.
The `HashMap` is modelled as an association list keyed by trigram: keys are
unique (guarded by `contains_key`), and since `sort_by` with a total order on
unique keys determines the output uniquely, the sorted association list equals
the sorted `HashMap` dump regardless of intermediate ordering.  `sort_by` is
modelled by `List.insertionSort` (both are sorts; with unique keys any two
sorted rearrangements of the same entries coincide). -/

/-- Bytewise lexicographic `≤` on trigrams: `[u8; 3]::cmp` is not `Greater`. -/
def triLe (a b : Tri) : Prop :=
  a.1 < b.1 ∨ (a.1 = b.1 ∧ (a.2.1 < b.2.1 ∨ (a.2.1 = b.2.1 ∧ a.2.2 ≤ b.2.2)))

instance : DecidableRel triLe := fun a b => by
  unfold triLe; infer_instance

/-- The ordering `create` sorts posting-list records by: the trigram key. -/
def recLe (a b : Tri × List Nat) : Prop := triLe a.1 b.1

instance : DecidableRel recLe := fun a b => by
  unfold recLe; infer_instance

instance : IsTotal (Tri × List Nat) recLe where
  total a b := by
    rcases a with ⟨⟨a1, a2, a3⟩, _⟩; rcases b with ⟨⟨b1, b2, b3⟩, _⟩
    simp only [recLe, triLe]; omega

instance : IsTrans (Tri × List Nat) recLe where
  trans a b c hab hbc := by
    rcases a with ⟨⟨a1, a2, a3⟩, _⟩; rcases b with ⟨⟨b1, b2, b3⟩, _⟩
    rcases c with ⟨⟨c1, c2, c3⟩, _⟩
    simp only [recLe, triLe] at *; omega

/-- Whether the association list already has a posting entry for `t`
(`HashMap::contains_key`). -/
def assocHasKey (idx : List (Tri × List Nat)) (t : Tri) : Bool :=
  idx.any fun p => p.1 = t

/-- Step `index.get_mut(t).unwrap().set(i, true)` on the association list. -/
def assocSetBit (idx : List (Tri × List Nat)) (t : Tri) (i : Nat) :
    List (Tri × List Nat) :=
  idx.map fun p => if p.1 = t then (p.1, bmSetTrue p.2 i) else p

/-- One step of the inversion loop: insert a zero bitmap of width `D` on
first sight of `t`, then set bit `i`. -/
def addTri (D i : Nat) (idx : List (Tri × List Nat)) (t : Tri) :
    List (Tri × List Nat) :=
  let idx' := if assocHasKey idx t then idx else idx ++ [(t, bmNew D)]
  assocSetBit idx' t i

/-- The full inversion: for each document ordinal `i` and trigram `t` of that
document, set bit `i` of `posting[t]`. -/
def invertDocs (D : Nat) (docs : List (List Nat × List Tri)) :
    List (Tri × List Nat) :=
  (docs.enum).foldl (fun idx p => p.2.2.foldl (addTri D p.1) idx) []

/-- The document list `create` accumulates: extraction failures are skipped
(logged), as are files with an empty trigram set. -/
def createDocs (corpus : List (List Nat × List Nat)) :
    List (List Nat × List Tri) :=
  corpus.filterMap fun pc =>
    match indexFile pc.2 with
    | Except.error _ => none
    | Except.ok ts => if ts = [] then none else some (pc.1, ts)

/-- The in-memory result of `Index::create` before writing: the document list
(paths in walker order) and the posting-list table sorted by trigram. -/
def createCore (corpus : List (List Nat × List Nat)) :
    List (List Nat) × List (Tri × List Nat) :=
  ((createDocs corpus).map Prod.fst,
    List.insertionSort recLe (invertDocs (createDocs corpus).length (createDocs corpus)))

/-! ## Index file format (`write_index`, `Index::load`, `Index::find_document`,
`Index::find_trigram`; index.rs lines 142-335 and 371-424)

The index file is a flat byte list: a 12-byte header (`KCS`, n-gram width 3,
big-endian `u32` document and n-gram counts), then `ngram_count` posting
records of 3 trigram bytes plus the bitmap bytes, then one record per
document consisting of the path bytes followed by a single `0x00` terminator
byte (`out.write_all(os_str_to_bytes(&doc))?; out.write_all(&[0])?;`). -/

/-- Big-endian `u32` encoding (`u32::to_be_bytes` after the `as u32` cast,
exact under the `assert!(len <= u32::MAX)`). -/
def u32be (n : Nat) : List Nat :=
  [n / 16777216 % 256, n / 65536 % 256, n / 256 % 256, n % 256]

/-- Big-endian `u32` decoding (`u32::from_be_bytes`). -/
def beU32 (a b c d : Nat) : Nat :=
  ((a % 256 * 256 + b % 256) * 256 + c % 256) * 256 + d % 256

/-- The trigram's 3 bytes as written to the file. -/
def triBytes (t : Tri) : List Nat := [t.1, t.2.1, t.2.2]

/-- Rust `write_index`: header, posting-list table, document table.  `none`
models the two `assert!` guards on the `u32` casts. -/
def writeIndex (documents : List (List Nat)) (index : List (Tri × List Nat)) :
    Option (List Nat) :=
  if documents.length ≤ 4294967295 ∧ index.length ≤ 4294967295 then
    some ([0x4b, 0x43, 0x53, 0x03] ++ u32be documents.length ++ u32be index.length
      ++ (index.map fun p => triBytes p.1 ++ p.2).flatten
      ++ (documents.map fun d => d ++ [0]).flatten)
  else none

/-- The header part of `Index::load`: check the `KCS` magic and the n-gram
width byte, and parse the two counts.  `none` collapses the `InvalidHeader`,
`UnsupportedNGramLength` and short-read errors, which no claim
distinguishes. -/
def loadHeader (file : List Nat) : Option (Nat × Nat) :=
  match file with
  | m0 :: m1 :: m2 :: w :: d0 :: d1 :: d2 :: d3 :: n0 :: n1 :: n2 :: n3 :: _ =>
      if m0 = 0x4b ∧ m1 = 0x43 ∧ m2 = 0x53 then
        if w = 3 then some (beU32 d0 d1 d2 d3, beU32 n0 n1 n2 n3) else none
      else none
  | _ => none

/-- Rust `Index::bitmask_len`: `ceil(document_count / 8)` (computed through
`f64::ceil` in the source, exact for every realistic count). -/
def bitmaskLen (D : Nat) : Nat := (D + 7) / 8

/-- Rust `BufRead::read_until(0, ..)` viewed from position `pos`: the bytes up to
and including the first `0x00`, or up to end of file. -/
def takeUntilZero : List Nat → List Nat
  | [] => []
  | b :: r => if b = 0 then [b] else b :: takeUntilZero r

/-- The `find_document` skip loop: consume `k` records; `none` models the
early `return Ok(None)` when `read_until` reads 0 bytes. -/
def skipDocRecords (file : List Nat) : Nat → Nat → Option Nat
  | 0, pos => some pos
  | k + 1, pos =>
      let seg := takeUntilZero (file.drop pos)
      if seg.length = 0 then none
      else skipDocRecords file k (pos + seg.length)

/-- Rust `Index::find_document`: seek to the document table at
`12 + (bitmask_len + 3) * ngram_count`, skip `ordinal` zero-terminated
records, read one more and drop its final byte (`buf.pop()`).  `D` and `n`
are the header counts of the loaded index. -/
def findDocument (file : List Nat) (D n ordinal : Nat) : Option (List Nat) :=
  let pos0 := 12 + (bitmaskLen D + 3) * n
  match skipDocRecords file ordinal pos0 with
  | none => none
  | some pos =>
      let seg := takeUntilZero (file.drop pos)
      if seg.length = 0 then none else some seg.dropLast

/-- Model of `read_exact` of `k` bytes at position `pos`: fails when fewer than `k`
bytes remain. -/
def readExact (file : List Nat) (pos k : Nat) : Option (List Nat) :=
  if pos + k ≤ file.length then some ((file.drop pos).take k) else none

/-- Array comparison `cmp` of `[u8; 3]` as used by `trigram.cmp(&buf)` in `find_trigram`. -/
def triCmp (a b : Tri) : Ordering :=
  if a.1 < b.1 then Ordering.lt else if b.1 < a.1 then Ordering.gt
  else if a.2.1 < b.2.1 then Ordering.lt else if b.2.1 < a.2.1 then Ordering.gt
  else if a.2.2 < b.2.2 then Ordering.lt else if b.2.2 < a.2.2 then Ordering.gt
  else Ordering.eq

/-- The `find_trigram` binary-search loop.  `recStart`/`recEnd`/`rec` are the
loop variables; the loop runs while `rec > rec_start && rec < rec_end`.  The
window shrinks every iteration, so `fuel = rec_end - rec_start + 1` never
runs out; `Except.error ()` models a failed `read_exact`. -/
def ftLoop (file : List Nat) (skip : Nat) (bmLen : Nat) (t : Tri) :
    Nat → Nat → Nat → Nat → Except Unit (Option (List Nat))
  | 0, _, _, _ => Except.ok none
  | fuel + 1, recStart, recEnd, rec =>
      if rec > recStart ∧ rec < recEnd then
        match readExact file (rec * skip + 12) 3 with
        | none => Except.error ()
        | some tb =>
            match tb with
            | [c0, c1, c2] =>
                match triCmp t (c0, c1, c2) with
                | Ordering.lt =>
                    ftLoop file skip bmLen t fuel recStart rec
                      (recStart + (rec - recStart) / 2)
                | Ordering.eq =>
                    match readExact file (rec * skip + 12 + 3) bmLen with
                    | none => Except.error ()
                    | some bm => Except.ok (some bm)
                | Ordering.gt =>
                    ftLoop file skip bmLen t fuel rec recEnd
                      (rec + (recEnd - rec) / 2 + 1)
            | _ => Except.error ()
      else Except.ok none

/-- Rust `Index::find_trigram` on a loaded index with header counts `D` and `n`:
binary search of the posting-list table. -/
def findTrigram (file : List Nat) (D n : Nat) (t : Tri) :
    Except Unit (Option (List Nat)) :=
  ftLoop file (bitmaskLen D + 3) (bitmaskLen D) t (n + 1) 0 n (n / 2 + 1)

/-! ## Ranking (`rank_file` and `get_preview`, src/search_rank.rs)

File contents and search terms are `&str` / `String`; both are modelled at
the byte level (`List Nat`), which makes `str::find`, slicing and
`starts_with` exact: Rust reports and slices at byte offsets of the UTF-8
encoding.  `str::trim` iterates `char`s, so the model carries a strict UTF-8
decoder and the Unicode White_Space table.

Panics are modelled as `Except.error` carrying the panic message: the
`expect("search_terms cannot be empty")` on an empty term list, string
slicing outside bounds or across a `char` boundary inside `get_preview`, and
the `from_utf8(tri).unwrap()` on a trigram that is not valid UTF-8. -/

/-- A UTF-8 continuation byte (`10xxxxxx`). -/
def utf8Cont (b : Nat) : Bool := decide (0x80 ≤ b ∧ b ≤ 0xBF)

/-- Decode one `char` from the front of a byte list: strict UTF-8 (rejects
overlong forms, surrogates and codepoints above U+10FFFF).  Returns the
codepoint and the remaining bytes. -/
def decodeUtf8Char : List Nat → Option (Nat × List Nat)
  | [] => none
  | b0 :: r0 =>
      if b0 < 0x80 then some (b0, r0)
      else
        match r0 with
        | [] => none
        | b1 :: r1 =>
            if 0xC2 ≤ b0 ∧ b0 ≤ 0xDF ∧ utf8Cont b1 = true then
              some ((b0 - 0xC0) * 64 + (b1 - 0x80), r1)
            else
              match r1 with
              | [] => none
              | b2 :: r2 =>
                  if ((b0 = 0xE0 ∧ 0xA0 ≤ b1 ∧ b1 ≤ 0xBF) ∨
                      (0xE1 ≤ b0 ∧ b0 ≤ 0xEC ∧ utf8Cont b1 = true) ∨
                      (b0 = 0xED ∧ 0x80 ≤ b1 ∧ b1 ≤ 0x9F) ∨
                      (0xEE ≤ b0 ∧ b0 ≤ 0xEF ∧ utf8Cont b1 = true)) ∧
                      utf8Cont b2 = true then
                    some ((b0 - 0xE0) * 4096 + (b1 - 0x80) * 64 + (b2 - 0x80), r2)
                  else
                    match r2 with
                    | [] => none
                    | b3 :: r3 =>
                        if ((b0 = 0xF0 ∧ 0x90 ≤ b1 ∧ b1 ≤ 0xBF) ∨
                            (0xF1 ≤ b0 ∧ b0 ≤ 0xF3 ∧ utf8Cont b1 = true) ∨
                            (b0 = 0xF4 ∧ 0x80 ≤ b1 ∧ b1 ≤ 0x8F)) ∧
                            utf8Cont b2 = true ∧ utf8Cont b3 = true then
                          some ((b0 - 0xF0) * 262144 + (b1 - 0x80) * 4096 +
                            (b2 - 0x80) * 64 + (b3 - 0x80), r3)
                        else none

/-- Unicode White_Space, the set `char::is_whitespace` accepts. -/
def isWsCp (c : Nat) : Bool :=
  decide (c = 9 ∨ c = 10 ∨ c = 11 ∨ c = 12 ∨ c = 13 ∨ c = 32 ∨ c = 0x85 ∨
    c = 0xA0 ∨ c = 0x1680 ∨ (0x2000 ≤ c ∧ c ≤ 0x200A) ∨ c = 0x2028 ∨
    c = 0x2029 ∨ c = 0x202F ∨ c = 0x205F ∨ c = 0x3000)

/-- Rust `str::trim_start` by chars (fuel-indexed; each decoded char consumes at
least one byte, so `s.length` fuel is never exhausted on the strings the
source feeds in, which are valid UTF-8). -/
def trimLeftFuel : Nat → List Nat → List Nat
  | 0, s => s
  | f + 1, s =>
      match decodeUtf8Char s with
      | some (cp, rest) => if isWsCp cp then trimLeftFuel f rest else s
      | none => s

/-- The start index of the last `char` of a valid UTF-8 byte list: the last
byte that is not a continuation byte. -/
def lastNonCont (s : List Nat) : Option Nat :=
  match s.reverse.findIdx? (fun b => !utf8Cont b) with
  | some j => some (s.length - 1 - j)
  | none => none

/-- Rust `str::trim_end` by chars (fuel-indexed like `trimLeftFuel`). -/
def trimRightFuel : Nat → List Nat → List Nat
  | 0, s => s
  | f + 1, s =>
      match lastNonCont s with
      | none => s
      | some i =>
          match decodeUtf8Char (s.drop i) with
          | some (cp, []) =>
              if isWsCp cp then trimRightFuel f (s.take i) else s
          | _ => s

/-- Rust `str::trim`: strip White_Space chars from both ends. -/
def trim (s : List Nat) : List Nat :=
  trimRightFuel s.length (trimLeftFuel s.length s)

/-- Rust `str::starts_with` for a byte-string pattern. -/
def startsWithB : List Nat → List Nat → Bool
  | [], _ => true
  | _ :: _, [] => false
  | a :: as, b :: bs => a = b && startsWithB as bs

/-- Rust `str::find` for a string pattern: byte offset of the first occurrence. -/
def findSub (s pat : List Nat) : Option Nat :=
  if startsWithB pat s then some 0
  else
    match s with
    | [] => none
    | _ :: t => (findSub t pat).map (· + 1)

/-- Rust `str::is_char_boundary`. -/
def isBoundary (s : List Nat) (i : Nat) : Bool :=
  if i = 0 then true
  else if i < s.length then !utf8Cont (s.getD i 0)
  else decide (i = s.length)

/-- String slicing `s[a..b]`: `none` models the panic when the range is
inverted, out of bounds, or either end is not a `char` boundary. -/
def strSlice (s : List Nat) (a b : Nat) : Option (List Nat) :=
  if decide (a ≤ b) && isBoundary s a && isBoundary s b then
    some ((s.drop a).take (b - a))
  else none

/-- Panic messages, used to tell the `expect` on an empty term list apart
from the other panics the function can hit. -/
def emptyMsg : String := "search_terms cannot be empty"

/-- Panic message for slicing out of bounds or across a char boundary. -/
def sliceMsg : String := "byte index is out of bounds or not a char boundary"

/-- Panic message for `from_utf8(tri).unwrap()` failing. -/
def unwrapMsg : String := "invalid utf-8 sequence"

/-- The `get_preview` walk-back loop
`while start > 0 { if source[start-1..].starts_with('\n') break; start -= 1 }`;
`none` models the slicing panic at a non-boundary `start - 1`. -/
def prevStart (s : List Nat) : Nat → Option Nat
  | 0 => some 0
  | i + 1 =>
      if !(isBoundary s i) then none
      else if startsWithB [10] (s.drop i) then some (i + 1)
      else prevStart s i

/-- The `get_preview` forward loop `while end < source.len() - 1 { .. }`,
with its two `break`s; the caller guarantees `s` non-empty, and the fuel
`s.length` bounds the at most `s.length - 1` iterations. -/
def fwdEnd (s : List Nat) (start : Nat) : Nat → Nat → Option Nat
  | 0, e => some e
  | f + 1, e =>
      if e < s.length - 1 then
        if !(isBoundary s (e + 1)) then none
        else if startsWithB [10] (s.drop (e + 1)) then some e
        else if e - start = 50 then some e
        else fwdEnd s start f (e + 1)
      else some e

/-- Rust `get_preview(source, target)`: the trimmed preview slice, or `none` for
any of its slicing panics.  When `source` is empty the loop bound
`source.len() - 1` wraps and the first iteration's `source[end + 1..]`
panics in every profile. -/
def getPreview (s : List Nat) (t0 t1 : Nat) : Option (List Nat) :=
  if t1 - t0 ≥ 50 then (strSlice s t0 (t0 + 50)).map trim
  else
    match prevStart s t0 with
    | none => none
    | some st =>
        if t1 - st ≥ 50 then (strSlice s (t1 - 25) (t1 + 25)).map trim
        else if s.length = 0 then none
        else
          match fwdEnd s st s.length t1 with
          | none => none
          | some e => (strSlice s st e).map trim

/-- The `terms.all(..)` closure chain of the phrase check: each remaining
term must sit at the head of `search_str`, which is then advanced past the
term and trimmed. -/
def phraseAll : List Nat → List (List Nat) → Bool
  | _, [] => true
  | s, t :: ts => if startsWithB t s then phraseAll (trim (s.drop t.length)) ts else false

/-- The sum `Σ len(termᵢ)` over a term list. -/
def sumLens (terms : List (List Nat)) : Nat :=
  (terms.map List.length).sum

/-- The phrase block of `rank_file`: find term 0, run the `all` chain over
the remaining terms, and on success add `len * 100` and push a preview of
`(start, start + len)`. -/
def rankPhrase (c t0 : List Nat) (rest : List (List Nat)) :
    Except String (Nat × List (List Nat)) :=
  match findSub c t0 with
  | none => Except.ok (0, [])
  | some start =>
      if phraseAll (trim (c.drop start)) rest then
        match getPreview c start (start + (t0.length + sumLens rest)) with
        | none => Except.error sliceMsg
        | some p => Except.ok ((t0.length + sumLens rest) * 100, [p])
      else Except.ok (0, [])

/-- The per-term block of `rank_file`: for each term found in the contents,
add `term.len() * 10` and push a preview. -/
def rankTerms (c : List Nat) : List (List Nat) → Except String (Nat × List (List Nat))
  | [] => Except.ok (0, [])
  | t :: ts =>
      match findSub c t with
      | none => rankTerms c ts
      | some i =>
          match getPreview c i (i + t.length) with
          | none => Except.error sliceMsg
          | some p =>
              Except.map (fun rp => (t.length * 10 + rp.1, p :: rp.2)) (rankTerms c ts)

/-- Rust `std::str::from_utf8` on exactly the 3 bytes of a trigram: ASCII bytes
and well-formed 2- or 3-byte sequences in the positions that fit. -/
def triValidUtf8 (t : Tri) : Bool :=
  match t with
  | (a, b, c) =>
      (decide (a < 0x80) && decide (b < 0x80) && decide (c < 0x80)) ||
      (decide (0xC2 ≤ a ∧ a ≤ 0xDF) && utf8Cont b && decide (c < 0x80)) ||
      (decide (a < 0x80) && decide (0xC2 ≤ b ∧ b ≤ 0xDF) && utf8Cont c) ||
      ((decide (a = 0xE0 ∧ 0xA0 ≤ b ∧ b ≤ 0xBF) ||
        decide (0xE1 ≤ a ∧ a ≤ 0xEC) && utf8Cont b ||
        decide (a = 0xED ∧ 0x80 ≤ b ∧ b ≤ 0x9F) ||
        decide (0xEE ≤ a ∧ a ≤ 0xEF) && utf8Cont b) && utf8Cont c)

/-- The per-trigram block of `rank_file`: `from_utf8(tri).unwrap()`, then for
each trigram found in the contents add 1 and push a preview. -/
def rankTris (c : List Nat) : List Tri → Except String (Nat × List (List Nat))
  | [] => Except.ok (0, [])
  | t :: ts =>
      if !(triValidUtf8 t) then Except.error unwrapMsg
      else
        match findSub c (triBytes t) with
        | none => rankTris c ts
        | some i =>
            match getPreview c i (i + 3) with
            | none => Except.error sliceMsg
            | some p =>
                Except.map (fun rp => (1 + rp.1, p :: rp.2)) (rankTris c ts)

/-- The final dedup-push of `preview_buf` into the caller's vector (which
`search` in main.rs passes in empty). -/
def pushUnique (acc : List (List Nat)) (l : List (List Nat)) : List (List Nat) :=
  l.foldl (fun a p => if p ∈ a then a else a ++ [p]) acc

/-- The body of `rank_file` once the first term has been extracted: phrase
block, then per-term block, then per-trigram block, ranks summed and the
preview buffer pushed with deduplication. -/
def rankAll (c t0 : List Nat) (rest : List (List Nat)) (tris : List Tri) :
    Except String (Nat × List (List Nat)) :=
  Except.bind (rankPhrase c t0 rest) fun rp1 =>
    Except.bind (rankTerms c (t0 :: rest)) fun rp2 =>
      Except.map
        (fun rp3 => (rp1.1 + rp2.1 + rp3.1, pushUnique [] (rp1.2 ++ rp2.2 ++ rp3.2)))
        (rankTris c tris)

/-- Rust `rank_file(path, search_terms, trigrams, previews)`: the returned score
together with the deduplicated previews.  `Except.error` carries the message
of the panic that would abort the process. -/
def rank_file (c : List Nat) (terms : List (List Nat)) (tris : List Tri) :
    Except String (Nat × List (List Nat)) :=
  match terms with
  | [] => Except.error emptyMsg
  | t0 :: rest => rankAll c t0 rest tris

/-- The phrase-match contribution to the score, read off the definition of
the phrase block: the bonus `100 · Σ len(termᵢ)` exactly when term 0 occurs
and the remaining terms chain from it. -/
def phraseBonus (c : List Nat) : List (List Nat) → Nat
  | [] => 0
  | t0 :: rest =>
      match findSub c t0 with
      | none => 0
      | some s =>
          if phraseAll (trim (c.drop s)) rest then 100 * (t0.length + sumLens rest) else 0

/-- The term-match contribution: `10 · len(term)` for each term the raw
contents contain. -/
def termBonus (c : List Nat) (terms : List (List Nat)) : Nat :=
  (terms.map fun t => if (findSub c t).isSome then 10 * t.length else 0).sum

/-- The trigram-match contribution: 1 for each query trigram the raw
contents contain. -/
def triBonus (c : List Nat) (tris : List Tri) : Nat :=
  (tris.map fun t => if (findSub c (triBytes t)).isSome then 1 else 0).sum

/-! ## Claims about the bitmap shifts (C5, C6) -/

/-- Claim C5 is false of the code: in the two-byte bitmap `[0x80, 0x00]`
bit 7 is set and `7 + 1 < 16`, yet after `<< 1` bit 8 is clear — the
sub-byte carry of `ShlAssign` is ORed back into the byte it came from, so
bit 7 reappears as bit 0, a position with no corresponding source bit. -/
theorem shl_carry_lands_in_wrong_byte :
    bmGet [128, 0] 7 = true ∧ 7 + 1 < 8 * 2 ∧
    shlAssign [128, 0] 1 = some [1, 0] ∧
    bmGet [1, 0] 8 = false ∧ bmGet [1, 0] 0 = true :=
  ⟨rfl, by omega, rfl, rfl, rfl⟩

/-- Claim C6 as stated is false: on the empty (zero-byte) bitmap a shift by
8 panics — the byte-stride loop computes `self.0.len() - 1`, which
underflows, and the subsequent indexing is out of bounds. -/
theorem shift_empty_bitmap_panics :
    shlAssign [] 8 = none ∧ shrAssign [] 8 = none :=
  ⟨rfl, rfl⟩

/-- The pass `shlBits` preserves the byte count. -/
theorem shlBits_length (s : Nat) : ∀ l : List Nat, (shlBits s l).length = l.length
  | [] => rfl
  | [_] => rfl
  | _ :: c :: rest => by
      simp only [shlBits, List.length_cons]
      exact congrArg Nat.succ (shlBits_length s (c :: rest))

/-- The pass `shrBits` preserves the byte count. -/
theorem shrBits_length (s : Nat) : ∀ (carry : Nat) (l : List Nat),
    (shrBits s carry l).length = l.length
  | _, [] => rfl
  | carry, _ :: rest => by
      simp only [shrBits, List.length_cons]
      exact congrArg Nat.succ (shrBits_length s _ rest)

/-- The `ShlAssign` byte-stride pass keeps a non-empty vector's length. -/
theorem repShlBytePass_length : ∀ (k : Nat) (l : List Nat), l ≠ [] →
    (repShlBytePass k l).length = l.length ∧ repShlBytePass k l ≠ []
  | 0, _, _ => ⟨rfl, by assumption⟩
  | k + 1, l, hl => by
      have hstep : (shlBytePass l).length = l.length := by
        cases l with
        | nil => exact absurd rfl hl
        | cons b t => simp [shlBytePass]
      have hne : shlBytePass l ≠ [] := by
        simp [shlBytePass]
      have ih := repShlBytePass_length k (shlBytePass l) hne
      exact ⟨by rw [repShlBytePass, ih.1, hstep], ih.2⟩

/-- The `ShrAssign` byte-stride pass keeps a non-empty vector's length. -/
theorem repShrBytePass_length : ∀ (k : Nat) (l : List Nat), l ≠ [] →
    (repShrBytePass k l).length = l.length ∧ repShrBytePass k l ≠ []
  | 0, _, _ => ⟨rfl, by assumption⟩
  | k + 1, l, hl => by
      have hstep : (shrBytePass l).length = l.length := by
        cases l with
        | nil => exact absurd rfl hl
        | cons b t => simp [shrBytePass]
      have hne : shrBytePass l ≠ [] := by
        simp [shrBytePass]
      have ih := repShrBytePass_length k (shrBytePass l) hne
      exact ⟨by rw [repShrBytePass, ih.1, hstep], ih.2⟩

/-- Claim C6, amended: for every bitmap that is non-empty — or any shift
amount below 8, where the byte-stride loop does not run — both shifts
succeed and preserve the byte length.  (The unamended claim fails only on
the empty bitmap with `n ≥ 8`.) -/
theorem shifts_preserve_length (a : List Nat) (n : Nat) (h : a ≠ [] ∨ n < 8) :
    (∃ r, shlAssign a n = some r ∧ r.length = a.length) ∧
    (∃ r, shrAssign a n = some r ∧ r.length = a.length) := by
  have hguard : ¬(n / 8 > 0 ∧ a.length = 0) := by
    rcases h with h | h
    · intro ⟨_, hlen⟩
      exact h (List.eq_nil_of_length_eq_zero hlen)
    · intro ⟨hbs, _⟩
      omega
  constructor
  · refine ⟨shlBits (n % 8) (repShlBytePass (n / 8) a), ?_, ?_⟩
    · simp only [shlAssign]
      rw [if_neg hguard]
    · rw [shlBits_length]
      rcases Nat.eq_zero_or_pos (n / 8) with hz | hpos
      · rw [hz, repShlBytePass]
      · have hne : a ≠ [] := by
          rcases h with h | h
          · exact h
          · omega
        exact (repShlBytePass_length _ a hne).1
  · refine ⟨shrBits (n % 8) 0 (repShrBytePass (n / 8) a), ?_, ?_⟩
    · simp only [shrAssign]
      rw [if_neg hguard]
    · rw [shrBits_length]
      rcases Nat.eq_zero_or_pos (n / 8) with hz | hpos
      · rw [hz, repShrBytePass]
      · have hne : a ≠ [] := by
          rcases h with h | h
          · exact h
          · omega
        exact (repShrBytePass_length _ a hne).1

/-- Witness for the amended C6 at a concrete input. -/
theorem shifts_preserve_length_witness :
    (([1, 2] : List Nat) ≠ [] ∨ 9 < 8) ∧
    ((∃ r, shlAssign [1, 2] 9 = some r ∧ r.length = 2) ∧
     (∃ r, shrAssign [1, 2] 9 = some r ∧ r.length = 2)) :=
  ⟨Or.inl (by simp), shifts_preserve_length [1, 2] 9 (Or.inl (by simp))⟩

/-! ## Claim about the non-mutating AND (C7) -/

/-- Claim C7 is false of the code: `a & a` panics for every bitmap of two or
more bytes, because `bitand` passes the *byte* count `max(len_a, len_b)` to
`BitMap::new`, whose argument is a *bit* count, so the result buffer has
`ceil(len / 8)` bytes and the write at index 1 is out of bounds.  On a
one-byte bitmap `ceil(1 / 8) = 1` and the identity holds. -/
theorem bitand_self_panics_at_two_bytes :
    bitAnd [0, 0] [0, 0] = none ∧ bitAnd [5] [5] = some [5] :=
  ⟨rfl, rfl⟩

/-! ## Claims about `rank_file` (C3, C4, C10) -/

/-- Claim C3 is false of the code: the contents `"foo bar"` contain the
phrase `foo bar` (term 1 follows term 0 across trimmed whitespace — third
conjunct), yet the returned score is 60, the two term bonuses alone: after
locating term 0 the code never advances past it, so the `starts_with` check
for term 1 runs against a string still beginning with term 0 and the
`100 · Σ len` bonus (600 here) is never added. -/
theorem phrase_bonus_never_added :
    rank_file [102, 111, 111, 32, 98, 97, 114] [[102, 111, 111], [98, 97, 114]] [] =
      Except.ok (60, [[102, 111, 111, 32, 98, 97], [102, 111, 111, 32, 98, 97, 114]]) ∧
    findSub [102, 111, 111, 32, 98, 97, 114] [102, 111, 111] = some 0 ∧
    trim ([102, 111, 111, 32, 98, 97, 114].drop 3) = [98, 97, 114] ∧
    60 < 100 * (3 + 3) :=
  ⟨rfl, rfl, rfl, by omega⟩

/-- Claim C4 as stated is false: the contents `"Hello"` lowercased contain
the term `"hello"` (second conjunct), yet `rank_file` returns score 0 — it
matches against the raw contents, never lowercasing them. -/
theorem term_match_is_case_sensitive :
    rank_file [72, 101, 108, 108, 111] [[104, 101, 108, 108, 111]] [] =
      Except.ok (0, []) ∧
    findSub ([72, 101, 108, 108, 111].map asciiLower) [104, 101, 108, 108, 111] = some 0 ∧
    (0 : Nat) < 10 * 5 :=
  ⟨rfl, rfl, by omega⟩

/-- The only panic the phrase block can hit is the preview-slicing one. -/
theorem rankPhrase_error_msg (c t0 : List Nat) (rest : List (List Nat)) (e : String)
    (h : rankPhrase c t0 rest = Except.error e) : e = sliceMsg := by
  unfold rankPhrase at h
  split at h
  · exact nomatch h
  · split at h
    · split at h
      · injection h with h1
        exact h1.symm
      · exact nomatch h
    · exact nomatch h

/-- The only panic the per-term block can hit is the preview-slicing one. -/
theorem rankTerms_error_msg (c : List Nat) : ∀ (ts : List (List Nat)) (e : String),
    rankTerms c ts = Except.error e → e = sliceMsg
  | [], _, h => nomatch h
  | t :: ts, e, h => by
      unfold rankTerms at h
      split at h
      · exact rankTerms_error_msg c ts e h
      · split at h
        · injection h with h1
          exact h1.symm
        · cases hrec : rankTerms c ts with
          | error e2 =>
              rw [hrec] at h
              simp only [Except.map] at h
              injection h with h1
              exact h1 ▸ rankTerms_error_msg c ts e2 hrec
          | ok rp =>
              rw [hrec] at h
              simp only [Except.map] at h
              exact nomatch h

/-- The per-trigram block can only panic in the `unwrap` or in preview
slicing. -/
theorem rankTris_error_msg (c : List Nat) : ∀ (ts : List Tri) (e : String),
    rankTris c ts = Except.error e → e = sliceMsg ∨ e = unwrapMsg
  | [], _, h => nomatch h
  | t :: ts, e, h => by
      unfold rankTris at h
      split at h
      · injection h with h1
        exact Or.inr h1.symm
      · split at h
        · exact rankTris_error_msg c ts e h
        · split at h
          · injection h with h1
            exact Or.inl h1.symm
          · cases hrec : rankTris c ts with
            | error e2 =>
                rw [hrec] at h
                simp only [Except.map] at h
                injection h with h1
                exact h1 ▸ rankTris_error_msg c ts e2 hrec
            | ok rp =>
                rw [hrec] at h
                simp only [Except.map] at h
                exact nomatch h

/-- Claim C10: `rank_file` panics through
`expect("search_terms cannot be empty")` exactly when the term list is
empty; with a non-empty term list that panic cannot occur (any abort is one
of the other panics, with a different message). -/
theorem rank_file_requires_terms :
    (∀ (c : List Nat) (tris : List Tri), rank_file c [] tris = Except.error emptyMsg) ∧
    (∀ (c t0 : List Nat) (rest : List (List Nat)) (tris : List Tri),
      rank_file c (t0 :: rest) tris ≠ Except.error emptyMsg) := by
  refine ⟨fun c tris => rfl, fun c t0 rest tris h => ?_⟩
  have h' : rankAll c t0 rest tris = Except.error emptyMsg := h
  unfold rankAll at h'
  cases h1 : rankPhrase c t0 rest with
  | error e1 =>
      rw [h1] at h'
      simp only [Except.bind] at h'
      injection h' with h2
      exact absurd (h2 ▸ rankPhrase_error_msg c t0 rest e1 h1) (by decide)
  | ok rp1 =>
      rw [h1] at h'
      simp only [Except.bind] at h'
      cases h2 : rankTerms c (t0 :: rest) with
      | error e2 =>
          rw [h2] at h'
          simp only [Except.bind] at h'
          injection h' with h3
          exact absurd (h3 ▸ rankTerms_error_msg c (t0 :: rest) e2 h2) (by decide)
      | ok rp2 =>
          rw [h2] at h'
          simp only [Except.bind] at h'
          cases h3 : rankTris c tris with
          | error e3 =>
              rw [h3] at h'
              simp only [Except.map] at h'
              injection h' with h4
              rcases h4 ▸ rankTris_error_msg c tris e3 h3 with h5 | h5 <;>
                exact absurd h5 (by decide)
          | ok rp3 =>
              rw [h3] at h'
              simp only [Except.map] at h'
              exact nomatch h'

/-- On success the phrase block contributes exactly `phraseBonus`. -/
theorem rankPhrase_ok_score (c t0 : List Nat) (rest : List (List Nat))
    (r : Nat) (ps : List (List Nat))
    (h : rankPhrase c t0 rest = Except.ok (r, ps)) :
    r = phraseBonus c (t0 :: rest) := by
  unfold rankPhrase at h
  split at h
  · rename_i hf
    injection h with h1
    have h2 : (0 : Nat) = r := congrArg Prod.fst h1
    simp [phraseBonus, hf]
    omega
  · rename_i start hf
    split at h
    · rename_i hall
      split at h
      · exact nomatch h
      · injection h with h1
        have h2 : (t0.length + sumLens rest) * 100 = r := congrArg Prod.fst h1
        simp [phraseBonus, hf, hall]
        omega
    · rename_i hall
      injection h with h1
      have h2 : (0 : Nat) = r := congrArg Prod.fst h1
      simp [phraseBonus, hf, hall]
      omega

/-- On success the per-term block contributes exactly `termBonus`. -/
theorem rankTerms_ok_score (c : List Nat) : ∀ (ts : List (List Nat))
    (r : Nat) (ps : List (List Nat)),
    rankTerms c ts = Except.ok (r, ps) → r = termBonus c ts
  | [], r, ps, h => by
      injection h with h1
      have h2 : (0 : Nat) = r := congrArg Prod.fst h1
      simp [termBonus]
      omega
  | t :: ts, r, ps, h => by
      unfold rankTerms at h
      split at h
      · rename_i hf
        have h3 := rankTerms_ok_score c ts r ps h
        simp [termBonus, hf] at h3 ⊢
        exact h3
      · rename_i i hf
        split at h
        · exact nomatch h
        · cases hrec : rankTerms c ts with
          | error e2 =>
              rw [hrec] at h
              simp only [Except.map] at h
              exact nomatch h
          | ok rp =>
              rw [hrec] at h
              simp only [Except.map] at h
              injection h with h1
              have h2 : t.length * 10 + rp.1 = r := congrArg Prod.fst h1
              have h3 := rankTerms_ok_score c ts rp.1 rp.2 (by rw [hrec])
              simp [termBonus, hf] at h3 ⊢
              omega

/-- On success the per-trigram block contributes exactly `triBonus`. -/
theorem rankTris_ok_score (c : List Nat) : ∀ (ts : List Tri)
    (r : Nat) (ps : List (List Nat)),
    rankTris c ts = Except.ok (r, ps) → r = triBonus c ts
  | [], r, ps, h => by
      injection h with h1
      have h2 : (0 : Nat) = r := congrArg Prod.fst h1
      simp [triBonus]
      omega
  | t :: ts, r, ps, h => by
      unfold rankTris at h
      split at h
      · exact nomatch h
      · split at h
        · rename_i hf
          have h3 := rankTris_ok_score c ts r ps h
          simp [triBonus, hf] at h3 ⊢
          exact h3
        · rename_i i hf
          split at h
          · exact nomatch h
          · cases hrec : rankTris c ts with
            | error e2 =>
                rw [hrec] at h
                simp only [Except.map] at h
                exact nomatch h
            | ok rp =>
                rw [hrec] at h
                simp only [Except.map] at h
                injection h with h1
                have h2 : 1 + rp.1 = r := congrArg Prod.fst h1
                have h3 := rankTris_ok_score c ts rp.1 rp.2 (by rw [hrec])
                simp [triBonus, hf] at h3 ⊢
                omega

/-- Claim C4, amended: re-scoring matches terms against the *raw* (not
lowercased) file contents — whenever `rank_file` returns a score, that score
decomposes as the phrase bonus plus `10 · len(term)` for every term the raw
contents contain plus 1 for every query trigram they contain. -/
theorem rank_file_score_decomposition (c : List Nat) (terms : List (List Nat))
    (tris : List Tri) (r : Nat) (ps : List (List Nat))
    (h : rank_file c terms tris = Except.ok (r, ps)) :
    r = phraseBonus c terms + termBonus c terms + triBonus c tris := by
  cases terms with
  | nil => exact nomatch (show Except.error emptyMsg = Except.ok (r, ps) from h)
  | cons t0 rest =>
      have h' : rankAll c t0 rest tris = Except.ok (r, ps) := h
      unfold rankAll at h'
      cases h1 : rankPhrase c t0 rest with
      | error e1 =>
          rw [h1] at h'
          simp only [Except.bind] at h'
          exact nomatch h'
      | ok rp1 =>
          rw [h1] at h'
          simp only [Except.bind] at h'
          cases h2 : rankTerms c (t0 :: rest) with
          | error e2 =>
              rw [h2] at h'
              simp only [Except.bind] at h'
              exact nomatch h'
          | ok rp2 =>
              rw [h2] at h'
              simp only [Except.bind] at h'
              cases h3 : rankTris c tris with
              | error e3 =>
                  rw [h3] at h'
                  simp only [Except.map] at h'
                  exact nomatch h'
              | ok rp3 =>
                  rw [h3] at h'
                  simp only [Except.map] at h'
                  injection h' with h4
                  have hr : rp1.1 + rp2.1 + rp3.1 = r := congrArg Prod.fst h4
                  rw [← hr, rankPhrase_ok_score c t0 rest rp1.1 rp1.2 (by rw [h1]),
                    rankTerms_ok_score c (t0 :: rest) rp2.1 rp2.2 (by rw [h2]),
                    rankTris_ok_score c tris rp3.1 rp3.2 (by rw [h3])]

/-- Witness for the amended C4: the contents `"hello"`, term `"hello"`. -/
theorem rank_file_score_decomposition_witness :
    rank_file [104, 101, 108, 108, 111] [[104, 101, 108, 108, 111]] [] =
      Except.ok (550, [[104, 101, 108, 108, 111]]) ∧
    550 = phraseBonus [104, 101, 108, 108, 111] [[104, 101, 108, 108, 111]] +
      termBonus [104, 101, 108, 108, 111] [[104, 101, 108, 108, 111]] +
      triBonus [104, 101, 108, 108, 111] [] :=
  ⟨rfl, rank_file_score_decomposition [104, 101, 108, 108, 111]
    [[104, 101, 108, 108, 111]] [] 550 [[104, 101, 108, 108, 111]] rfl⟩

/-! ## Claim C8: binary-file rejection -/

/-- A bad window forces the whole file to be rejected: the loop aborts with
`BinaryFile` at the first window failing either classifier predicate. -/
theorem indexFileGo_error_of_bad : ∀ (bs : List Nat) (acc : List Tri),
    (∃ w ∈ windows3 bs, ¬(is_utf8 w = true ∧ is_printable w = true)) →
    indexFileGo acc bs = Except.error ()
  | [], _, h => by simp [windows3] at h
  | [_], _, h => by simp [windows3] at h
  | [_, _], _, h => by simp [windows3] at h
  | b0 :: b1 :: b2 :: rest, acc, h => by
      rcases h with ⟨w, hw, hbad⟩
      simp only [windows3, List.mem_cons] at hw
      simp only [indexFileGo]
      by_cases hcond : is_utf8 [b0, b1, b2] && is_printable [b0, b1, b2]
      · rcases hw with hw | hw
        · exfalso
          apply hbad
          subst hw
          simpa using hcond
        · simp only [hcond, Bool.not_true, Bool.false_eq_true, if_false]
          exact indexFileGo_error_of_bad (b1 :: b2 :: rest) _ ⟨w, hw, hbad⟩
      · simp [hcond]

/-- When every window passes both predicates the extraction succeeds. -/
theorem indexFileGo_ok_of_good : ∀ (bs : List Nat) (acc : List Tri),
    (∀ w ∈ windows3 bs, is_utf8 w = true ∧ is_printable w = true) →
    ∃ ts, indexFileGo acc bs = Except.ok ts
  | [], acc, _ => ⟨acc, rfl⟩
  | [_], acc, _ => ⟨acc, rfl⟩
  | [_, _], acc, _ => ⟨acc, rfl⟩
  | b0 :: b1 :: b2 :: rest, acc, hgood => by
      have hw : is_utf8 [b0, b1, b2] = true ∧ is_printable [b0, b1, b2] = true :=
        hgood [b0, b1, b2] (by simp [windows3])
      simp only [indexFileGo, hw.1, hw.2, Bool.and_self, Bool.not_true,
        Bool.false_eq_true, if_false]
      exact indexFileGo_ok_of_good (b1 :: b2 :: rest) _
        (fun w hmem => hgood w (by simp only [windows3, List.mem_cons]; right; exact hmem))

/-- In a file of at least 3 bytes every byte lies in some window. -/
theorem mem_window_of_mem : ∀ (bs : List Nat), 3 ≤ bs.length → ∀ b ∈ bs,
    ∃ w ∈ windows3 bs, b ∈ w
  | [], h, _, _ => absurd h (by simp)
  | [_], h, _, _ => absurd h (by simp)
  | [_, _], h, _, _ => absurd h (by simp)
  | b0 :: b1 :: b2 :: rest, _, b, hb => by
      rcases List.mem_cons.mp hb with h | hb1
      · exact ⟨[b0, b1, b2], by simp [windows3], by simp [h]⟩
      · cases rest with
        | nil =>
            refine ⟨[b0, b1, b2], by simp [windows3], ?_⟩
            rcases List.mem_cons.mp hb1 with h | h
            · simp [h]
            · rcases List.mem_cons.mp h with h2 | h2
              · simp [h2]
              · exact absurd h2 (List.not_mem_nil b)
        | cons r rs =>
            rcases mem_window_of_mem (b1 :: b2 :: r :: rs) (by simp) b hb1 with ⟨w, hw, hbw⟩
            exact ⟨w, List.mem_cons_of_mem _ hw, hbw⟩

/-- Claim C8: for a file of at least 3 bytes, extraction aborts with
`BinaryFile` as soon as any sliding window holds a byte failing a classifier
predicate — in particular whenever a `0x00` byte occurs anywhere — and
returns a trigram set when every window passes both predicates. -/
theorem binary_file_detection (bs : List Nat) (h3 : 3 ≤ bs.length) :
    ((∃ w ∈ windows3 bs, ¬(is_utf8 w = true ∧ is_printable w = true)) →
      indexFile bs = Except.error ()) ∧
    (0 ∈ bs → indexFile bs = Except.error ()) ∧
    ((∀ w ∈ windows3 bs, is_utf8 w = true ∧ is_printable w = true) →
      ∃ ts, indexFile bs = Except.ok ts) := by
  refine ⟨fun h => indexFileGo_error_of_bad bs [] h, fun h0 => ?_,
    fun hgood => indexFileGo_ok_of_good bs [] hgood⟩
  rcases mem_window_of_mem bs h3 0 h0 with ⟨w, hw, h0w⟩
  apply indexFileGo_error_of_bad bs []
  refine ⟨w, hw, fun hok => ?_⟩
  have hpr := hok.2
  simp [is_printable] at hpr
  rcases hpr 0 h0w with h | h <;> omega

/-- Witness for C8: the 3-byte file `68 69 00` is rejected as binary. -/
theorem binary_file_detection_witness :
    indexFile [104, 105, 0] = Except.error () :=
  (binary_file_detection [104, 105, 0] (by simp)).2.1 (by simp)

/-! ## Claim C9: invariants of the index `create` builds -/

/-- A `foldl` preserves any invariant its step preserves. -/
theorem foldl_preserve {α β : Type} (P : β → Prop) (f : β → α → β)
    (hf : ∀ b a, P b → P (f b a)) : ∀ (l : List α) (b : β), P b → P (l.foldl f b)
  | [], _, hb => hb
  | a :: l, b, hb => foldl_preserve P f hf l (f b a) (hf b a hb)

/-- One inversion step keeps every posting bitmap at `ceil(D / 8)` bytes:
fresh bitmaps are created with `BitMap::new(D)` and `set` never changes the
byte count. -/
theorem addTri_preserves (D i : Nat) (idx : List (Tri × List Nat)) (t : Tri)
    (h : ∀ p ∈ idx, (p.2 : List Nat).length = bitmaskLen D) :
    ∀ p ∈ addTri D i idx t, (p.2 : List Nat).length = bitmaskLen D := by
  intro p hp
  simp only [addTri, assocSetBit] at hp
  rcases List.mem_map.mp hp with ⟨q, hq, hpq⟩
  have hqlen : (q.2 : List Nat).length = bitmaskLen D := by
    by_cases hk : assocHasKey idx t
    · rw [if_pos hk] at hq
      exact h q hq
    · rw [if_neg hk] at hq
      rcases List.mem_append.mp hq with hq1 | hq1
      · exact h q hq1
      · simp only [List.mem_singleton] at hq1
        rw [hq1]
        simp [bmNew, bitmaskLen]
  split at hpq
  · rw [← hpq]
    simp [bmSetTrue, hqlen]
  · rw [← hpq]
    exact hqlen

/-- Every posting bitmap built by the inversion has `ceil(D / 8)` bytes. -/
theorem invertDocs_lengths (D : Nat) (docs : List (List Nat × List Tri)) :
    ∀ p ∈ invertDocs D docs, (p.2 : List Nat).length = bitmaskLen D := by
  unfold invertDocs
  refine foldl_preserve
    (fun (idx : List (Tri × List Nat)) => ∀ p ∈ idx, (p.2 : List Nat).length = bitmaskLen D)
    _ ?_ _ [] (by simp)
  intro idx pr hidx
  exact foldl_preserve
    (fun (idx : List (Tri × List Nat)) => ∀ p ∈ idx, (p.2 : List Nat).length = bitmaskLen D)
    (addTri D pr.1) (fun b a hb => addTri_preserves D pr.1 b a hb) pr.2.2 idx hidx

/-- Claim C9: every index `create` builds satisfies the invariants — the
posting-list records are sorted ascending by trigram bytes, and every
posting bitmap is exactly `ceil(D / 8)` bytes for `D` the document count. -/
theorem create_invariants (corpus : List (List Nat × List Nat)) :
    List.Sorted recLe (createCore corpus).2 ∧
    ∀ p ∈ (createCore corpus).2,
      (p.2 : List Nat).length = bitmaskLen (createCore corpus).1.length := by
  constructor
  · have h2 : (createCore corpus).2 =
        List.insertionSort recLe
          (invertDocs (createDocs corpus).length (createDocs corpus)) := rfl
    rw [h2]
    exact List.sorted_insertionSort recLe _
  · intro p hp
    have hmem : p ∈ invertDocs (createDocs corpus).length (createDocs corpus) :=
      (List.perm_insertionSort recLe _).mem_iff.mp hp
    have hlen := invertDocs_lengths (createDocs corpus).length (createDocs corpus) p hmem
    have h1 : (createCore corpus).1.length = (createDocs corpus).length := by
      simp [createCore]
    rw [h1]
    exact hlen

/-! ## Claim C2: the document-table record format -/

/-- Claim C2 as stated is false: for the single document with path bytes
`61 62`, `write_index` emits `61 62 00` — the raw path bytes followed by a
single `0x00` terminator — not the big-endian u32 length prefix
`00 00 00 02 61 62`. -/
theorem doc_record_not_length_prefixed :
    writeIndex [[97, 98]] [] =
      some ([75, 67, 83, 3, 0, 0, 0, 1, 0, 0, 0, 0] ++ [97, 98, 0]) ∧
    [97, 98, 0] ≠ [0, 0, 0, 2] ++ [97, 98] :=
  ⟨rfl, by decide⟩

/-- Reading `read_until(0, ..)` on a zero-free record followed by its terminator
consumes exactly the record and the terminator. -/
theorem takeUntilZero_append : ∀ (d rest : List Nat), ¬ 0 ∈ d →
    takeUntilZero (d ++ 0 :: rest) = d ++ [0]
  | [], _, _ => by simp [takeUntilZero]
  | b :: t, rest, hz => by
      have hb : b ≠ 0 := fun h => hz (by simp [h])
      have ht : ¬ 0 ∈ t := fun h => hz (List.mem_cons_of_mem _ h)
      simp [takeUntilZero, hb, takeUntilZero_append t rest ht]

/-- The posting-list table occupies `ngram_count * (3 + ceil(D / 8))` bytes
when every bitmap has the invariant width. -/
theorem postings_length (L : Nat) : ∀ (index : List (Tri × List Nat)),
    (∀ p ∈ index, (p.2 : List Nat).length = L) →
    ((index.map fun p => triBytes p.1 ++ p.2).flatten).length = index.length * (3 + L)
  | [], _ => by simp
  | p :: idx, h => by
      have hp := h p (List.mem_cons_self p idx)
      have ih := postings_length L idx (fun q hq => h q (List.mem_cons_of_mem _ hq))
      have h3 : (triBytes p.1).length = 3 := rfl
      simp only [List.map_cons, List.flatten_cons, List.length_append, List.length_cons,
        ih, h3, hp]
      ring

/-- The skip loop of `find_document` lands at the start of record `i` of the
document table when no path contains a `0x00` byte. -/
theorem skipDoc_correct (file : List Nat) : ∀ (i : Nat) (docs : List (List Nat)) (pos : Nat),
    i ≤ docs.length → (∀ d ∈ docs, ¬ 0 ∈ d) →
    file.drop pos = (docs.map fun d => d ++ [0]).flatten →
    ∃ pos', skipDocRecords file i pos = some pos' ∧
      file.drop pos' = ((docs.drop i).map fun d => d ++ [0]).flatten
  | 0, docs, pos, _, _, hdrop => ⟨pos, rfl, by simpa using hdrop⟩
  | i + 1, docs, pos, hle, hz, hdrop => by
      cases docs with
      | nil => simp at hle
      | cons d ds =>
          have hzd : ¬ 0 ∈ d := hz d (List.mem_cons_self _ _)
          have hflat : (List.map (fun d => d ++ [0]) (d :: ds)).flatten =
              d ++ 0 :: (List.map (fun d => d ++ [0]) ds).flatten := by
            simp
          have htz : takeUntilZero (file.drop pos) = d ++ [0] := by
            rw [hdrop, hflat]
            exact takeUntilZero_append d _ hzd
          have hstep : skipDocRecords file (i + 1) pos =
              skipDocRecords file i (pos + (d.length + 1)) := by
            simp [skipDocRecords, htz]
          have hdrop' : file.drop (pos + (d.length + 1)) =
              (List.map (fun d => d ++ [0]) ds).flatten := by
            have h1 : file.drop (pos + (d.length + 1)) =
                (file.drop pos).drop (d.length + 1) := by
              rw [List.drop_drop]
            rw [h1, hdrop, hflat]
            have h2 : d ++ 0 :: (List.map (fun d => d ++ [0]) ds).flatten =
                (d ++ [0]) ++ (List.map (fun d => d ++ [0]) ds).flatten := by
              simp
            rw [h2]
            have h3 : (d ++ [0]).length = d.length + 1 := by simp
            rw [← h3]
            exact List.drop_left _ _
          rcases skipDoc_correct file i ds (pos + (d.length + 1)) (by simpa using hle)
            (fun q hq => hz q (List.mem_cons_of_mem _ hq)) hdrop' with ⟨pos', hskip, hrest⟩
          exact ⟨pos', by rw [hstep, hskip], by simpa using hrest⟩

/-- Claim C2, amended: each document-table record is the path's raw OS-native
bytes followed by a single `0x00` terminator, and `find_document` reads
records back by scanning to each terminator: for every file `write_index`
produces (with invariant-width bitmaps and zero-free paths),
`find_document i` returns document `i`'s path bytes. -/
theorem doc_records_roundtrip (documents : List (List Nat))
    (index : List (Tri × List Nat)) (file : List Nat) (i : Nat)
    (hw : writeIndex documents index = some file)
    (hbm : ∀ p ∈ index, (p.2 : List Nat).length = bitmaskLen documents.length)
    (hz : ∀ d ∈ documents, ¬ 0 ∈ d)
    (hi : i < documents.length) :
    findDocument file documents.length index.length i = some (documents.getD i []) := by
  unfold writeIndex at hw
  split at hw
  case isFalse => exact nomatch hw
  case isTrue hle =>
  injection hw with hw
  set hdr : List Nat :=
    [0x4b, 0x43, 0x53, 0x03] ++ u32be documents.length ++ u32be index.length with hhdr
  set postings : List Nat := (index.map fun p => triBytes p.1 ++ p.2).flatten with hpostings
  set table : List Nat := (documents.map fun d => d ++ [0]).flatten with htable
  have hfile : file = (hdr ++ postings) ++ table := by
    rw [← hw, List.append_assoc]
  have hprefix_len : (hdr ++ postings).length =
      12 + (bitmaskLen documents.length + 3) * index.length := by
    have h1 : hdr.length = 12 := by simp [hhdr, u32be]
    have h2 : postings.length = index.length * (3 + bitmaskLen documents.length) :=
      postings_length _ index hbm
    simp only [List.length_append, h1, h2]
    ring
  have hdrop0 : file.drop (12 + (bitmaskLen documents.length + 3) * index.length) = table := by
    rw [hfile, ← hprefix_len]
    exact List.drop_left _ _
  rcases skipDoc_correct file i documents
    (12 + (bitmaskLen documents.length + 3) * index.length)
    (Nat.le_of_lt hi) hz hdrop0 with ⟨pos', hskip, hrest⟩
  have hsplit : documents.drop i = documents.getD i [] :: documents.drop (i + 1) := by
    rw [List.getD_eq_getElem documents [] hi]
    exact List.drop_eq_getElem_cons hi
  have htz : takeUntilZero (file.drop pos') =
      documents.getD i [] ++ [0] := by
    rw [hrest, hsplit]
    have : (List.map (fun d => d ++ [0]) (documents.getD i [] :: documents.drop (i + 1))).flatten =
        documents.getD i [] ++ 0 ::
          (List.map (fun d => d ++ [0]) (documents.drop (i + 1))).flatten := by
      simp
    rw [this]
    refine takeUntilZero_append _ _ ?_
    refine hz _ ?_
    rw [List.getD_eq_getElem documents [] hi]
    exact List.getElem_mem hi
  simp only [findDocument]
  rw [hskip]
  simp [htz]

/-- Witness for the amended C2 at a concrete one-document index. -/
theorem doc_records_roundtrip_witness :
    findDocument [75, 67, 83, 3, 0, 0, 0, 1, 0, 0, 0, 0, 97, 98, 0] 1 0 0 = some [97, 98] :=
  doc_records_roundtrip [[97, 98]] [] [75, 67, 83, 3, 0, 0, 0, 1, 0, 0, 0, 0, 97, 98, 0] 0
    rfl (by simp) (by decide) (by decide)

/-! ## Claim C1: `find_trigram` on indexes written by `create` -/

/-- Claim C1 is false of the code (code bug): for the one-file corpus whose
contents are `aaa`, `create` produces an index whose single posting record
holds the trigram `aaa` with bit 0 set — the trigram *is* present in
document 0 — yet `find_trigram` returns `none`: the binary search starts at
`rec = ngram_count / 2 + 1 = 1`, which already fails `rec < rec_end = 1`, so
the loop never compares any record; more generally record 0 can never be
compared because the loop requires `rec > rec_start = 0`. -/
theorem find_trigram_misses_present_trigram :
    indexFile [97, 97, 97] = Except.ok [(97, 97, 97)] ∧
    createCore [([102], [97, 97, 97])] = ([[102]], [((97, 97, 97), [1])]) ∧
    writeIndex [[102]] [((97, 97, 97), [1])] =
      some [75, 67, 83, 3, 0, 0, 0, 1, 0, 0, 0, 1, 97, 97, 97, 1, 102, 0] ∧
    loadHeader [75, 67, 83, 3, 0, 0, 0, 1, 0, 0, 0, 1, 97, 97, 97, 1, 102, 0] = some (1, 1) ∧
    bmGet [1] 0 = true ∧
    findTrigram [75, 67, 83, 3, 0, 0, 0, 1, 0, 0, 0, 1, 97, 97, 97, 1, 102, 0] 1 1
      (97, 97, 97) = Except.ok none :=
  ⟨rfl, rfl, rfl, rfl, rfl, rfl⟩

/-- Witness for C9 at a concrete one-file corpus: the single posting record
of the index over the file `aaa` has the invariant bitmap width. -/
theorem create_invariants_witness :
    (((97, 97, 97), [1]) : Tri × List Nat).2.length =
      bitmaskLen (createCore [([102], [97, 97, 97])]).1.length :=
  (create_invariants [([102], [97, 97, 97])]).2 ((97, 97, 97), [1])
    (show ((97, 97, 97), [1]) ∈ [(((97, 97, 97) : Tri), ([1] : List Nat))] from
      List.mem_singleton.mpr rfl)

/-- Witness for C10: the empty term list panics with the `expect` message. -/
theorem rank_file_requires_terms_witness :
    rank_file [97] [] [] = Except.error emptyMsg :=
  rank_file_requires_terms.1 [97] []

end Codesearch
